import Mathlib

/-
Formal model of the mpistat data filter (filter.py).

The program is embedded at byte level: Python byte strings and text strings
are both modelled as List Nat (their byte values; text is carried in its
UTF-8 encoded form, which is faithful for all the operations used here since
the only bytes the code ever splits or compares on are ASCII, and ASCII bytes
never occur inside multi byte UTF-8 sequences).  Fallible Python operations
(decoding, int parsing, datetime construction) return Option; a none result
models a raised exception.
-/

set_option autoImplicit false

set_option linter.unusedVariables false

/-- Base64 alphabet: maps a six bit value to the ASCII code of its digit
(A-Z, a-z, 0-9, plus, slash). -/
def b64char (n : Nat) : Nat :=
  if n < 26 then 65 + n
  else if n < 52 then 97 + (n - 26)
  else if n < 62 then 48 + (n - 52)
  else if n = 62 then 43
  else 47

/-- Inverse of the base64 alphabet: maps an ASCII code to its six bit value,
or none when the byte is not a base64 digit. -/
def b64charInv (c : Nat) : Option Nat :=
  if 65 ≤ c ∧ c ≤ 90 then some (c - 65)
  else if 97 ≤ c ∧ c ≤ 122 then some (c - 97 + 26)
  else if 48 ≤ c ∧ c ≤ 57 then some (c - 48 + 52)
  else if c = 43 then some 62
  else if c = 47 then some 63
  else none

/-- First output character of a base64 group: top six bits of the first byte. -/
def b64c1 (a : Nat) : Nat := b64char (a / 4)

/-- Second output character of a base64 group: low two bits of the first byte
and top four bits of the second byte. -/
def b64c2 (a b : Nat) : Nat := b64char (a % 4 * 16 + b / 16)

/-- Third output character of a base64 group: low four bits of the second byte
and top two bits of the third byte. -/
def b64c3 (b c : Nat) : Nat := b64char (b % 16 * 4 + c / 64)

/-- Fourth output character of a base64 group: low six bits of the third byte. -/
def b64c4 (c : Nat) : Nat := b64char (c % 64)

/-- Model of base64.b64encode: encodes three byte groups into four base64
characters, padding a trailing group of one or two bytes with = (ASCII 61). -/
def b64encode : List Nat → List Nat
  | [] => []
  | [a] => [b64c1 a, b64c2 a 0, 61, 61]
  | [a, b] => [b64c1 a, b64c2 a b, b64c3 b 0, 61]
  | a :: b :: c :: rest => b64c1 a :: b64c2 a b :: b64c3 b c :: b64c4 c :: b64encode rest

/-- Model of base64.b64decode on inputs made of base64 digits with canonical
trailing = padding.  The CPython leniencies that the records considered in the
theorems below never exercise (silently discarding bytes outside the alphabet,
tolerating data after the padding, ignoring nonzero unused bits in the final
character) are not modelled; on inputs whose length is not a multiple of four,
CPython raises binascii.Error and this model returns none. -/
def b64decodeOpt : List Nat → Option (List Nat)
  | [] => some []
  | a :: b :: c :: d :: rest =>
    match b64charInv a, b64charInv b with
    | some va, some vb =>
      if c = 61 then
        if d = 61 ∧ rest = [] then some [va * 4 + vb / 16] else none
      else
        match b64charInv c with
        | some vc =>
          if d = 61 then
            if rest = [] then some [va * 4 + vb / 16, vb % 16 * 16 + vc / 4] else none
          else
            match b64charInv d with
            | some vd =>
              match b64decodeOpt rest with
              | some r => some ((va * 4 + vb / 16) :: (vb % 16 * 16 + vc / 4) :: (vc % 4 * 64 + vd) :: r)
              | none => none
            | none => none
        | none => none
    | _, _ => none
  | _ => none

/-- Model of os.path.commonprefix applied to a two element list: the longest
common prefix of the two sequences. -/
def commonPrefix2 : List Nat → List Nat → List Nat
  | a :: as, b :: bs => if a = b then a :: commonPrefix2 as bs else []
  | _, _ => []

/-- Model of the Python startswith test: startsWithL p s is true when p is a
prefix of s. -/
def startsWithL {α : Type} [DecidableEq α] : List α → List α → Bool
  | [], _ => true
  | _ :: _, [] => false
  | a :: as, b :: bs => if a = b then startsWithL as bs else false

/-- Model of the Python bytes split method with a one byte separator: splits
into the (possibly empty) runs between separator occurrences. -/
def splitOnByte (sep : Nat) : List Nat → List (List Nat)
  | [] => [[]]
  | c :: rest =>
    let r := splitOnByte sep rest
    if c = sep then [] :: r
    else
      match r with
      | h :: t => (c :: h) :: t
      | [] => [[c]]

/-- Components of a PurePosixPath built from a byte string: the fields between
slashes, with empty fields and single dot fields dropped, exactly as pathlib
parses a POSIX path. -/
def pathComps (s : List Nat) : List (List Nat) :=
  (splitOnByte 47 s).filter (fun c => decide (c ≠ [] ∧ c ≠ [46]))

/-- Root marker of a PurePosixPath built from a byte string: 0 for a relative
path, 1 for a single leading slash (also three or more), 2 for the special
POSIX double slash root. -/
def pathRoot (s : List Nat) : Nat :=
  if s.headD 0 = 47 then
    if s.tail.headD 0 = 47 then
      if s.tail.tail.headD 0 = 47 then 1 else 2
    else 1
  else 0

/-- Chain of a component list together with all its ancestors, longest first:
models the Python list [rec_path, *rec_path.parents] at the level of parsed
components with a fixed root. -/
def ancChain (l : List (List Nat)) : List (List (List Nat)) :=
  ((List.range (l.length + 1)).reverse).map (fun k => l.take k)

/-- Model of the membership test of filter.py line 103: the Path built from d
equals the Path built from p or is one of its ancestors.  Two PurePosixPath
values are equal exactly when their roots and parsed component tuples agree,
and the parents of a path share its root and drop components from the end one
at a time. -/
def dirMember (d p : List Nat) : Bool :=
  (pathRoot d == pathRoot p) && (ancChain (pathComps p)).contains (pathComps d)

/-- Join of path components with single slash separators. -/
def joinSlash : List (List Nat) → List Nat
  | [] => []
  | [c] => c
  | c :: rest => c ++ 47 :: joinSlash rest

/-- Normal form for an absolute POSIX path string: a leading slash followed by
the parsed components joined by single slashes.  Such strings contain no
doubled slashes, no dot components and no trailing slash (except the root
itself), so pathlib normalisation leaves them unchanged. -/
def isNormal (p : List Nat) : Prop :=
  p = 47 :: joinSlash (pathComps p)

instance (p : List Nat) : Decidable (isNormal p) := by
  unfold isNormal
  infer_instance

/-- Model of line 89 of filter.py: the directory string with a trailing slash
appended when one is absent. -/
def dirWith (d : List Nat) : List Nat :=
  if d.getLast? = some 47 then d else d ++ [47]

/-- Model of line 90 of filter.py: the trailing slash form with its final byte
removed. -/
def dirWithout (d : List Nat) : List Nat := (dirWith d).dropLast

/-- ASCII whitespace bytes stripped by the Python int constructor. -/
def isSpace (c : Nat) : Bool :=
  c = 32 || c = 9 || c = 10 || c = 13 || c = 11 || c = 12

/-- ASCII decimal digit test. -/
def isDigit (c : Nat) : Bool := 48 ≤ c && c ≤ 57

/-- Digit accumulator for the Python int grammar: digits, optionally
separated by single underscores. -/
def pyDigitsAux : Nat → List Nat → Option Nat
  | acc, [] => some acc
  | acc, 95 :: c :: rest =>
    if isDigit c then pyDigitsAux (acc * 10 + (c - 48)) rest else none
  | acc, c :: rest =>
    if isDigit c then pyDigitsAux (acc * 10 + (c - 48)) rest else none

/-- Unsigned part of the Python int grammar: a nonempty digit run with
optional single underscores between digits. -/
def pyDigits : List Nat → Option Nat
  | [] => none
  | c :: rest => if isDigit c then pyDigitsAux (c - 48) rest else none

/-- Model of the Python int constructor on a bytes field: strips ASCII
whitespace from both ends, then parses an optional sign followed by digits;
none models a raised ValueError. -/
def pyIntOpt (s : List Nat) : Option Int :=
  let t := ((s.dropWhile isSpace).reverse.dropWhile isSpace).reverse
  match t with
  | 43 :: rest => (pyDigits rest).map (fun n => Int.ofNat n)
  | 45 :: rest => (pyDigits rest).map (fun n => -(Int.ofNat n))
  | _ => (pyDigits t).map (fun n => Int.ofNat n)

/-- Continuation byte test for UTF-8. -/
def utf8cont (c : Nat) : Bool := 128 ≤ c && c ≤ 191

/-- UTF-8 validity of a byte string, following the table of well formed
sequences (overlong forms, surrogates and values above U+10FFFF rejected),
which is exactly what the strict Python bytes decode method accepts. -/
def validUtf8 : List Nat → Bool
  | [] => true
  | c :: rest =>
    if c ≤ 127 then validUtf8 rest
    else if 194 ≤ c && c ≤ 223 then
      match rest with
      | c2 :: r => utf8cont c2 && validUtf8 r
      | [] => false
    else if c = 224 then
      match rest with
      | c2 :: c3 :: r => (160 ≤ c2 && c2 ≤ 191) && utf8cont c3 && validUtf8 r
      | _ => false
    else if (225 ≤ c && c ≤ 236) || c = 238 || c = 239 then
      match rest with
      | c2 :: c3 :: r => utf8cont c2 && utf8cont c3 && validUtf8 r
      | _ => false
    else if c = 237 then
      match rest with
      | c2 :: c3 :: r => (128 ≤ c2 && c2 ≤ 159) && utf8cont c3 && validUtf8 r
      | _ => false
    else if c = 240 then
      match rest with
      | c2 :: c3 :: c4 :: r => (144 ≤ c2 && c2 ≤ 191) && utf8cont c3 && utf8cont c4 && validUtf8 r
      | _ => false
    else if 241 ≤ c && c ≤ 243 then
      match rest with
      | c2 :: c3 :: c4 :: r => utf8cont c2 && utf8cont c3 && utf8cont c4 && validUtf8 r
      | _ => false
    else if c = 244 then
      match rest with
      | c2 :: c3 :: c4 :: r => (128 ≤ c2 && c2 ≤ 143) && utf8cont c3 && utf8cont c4 && validUtf8 r
      | _ => false
    else false

/-- Model of the Python bytes decode method with default UTF-8 codec: the
decoded text is carried as the same byte string, none models a raised
UnicodeDecodeError. -/
def pyDecodeOpt (s : List Nat) : Option (List Nat) :=
  if validUtf8 s then some s else none

/-- Model of datetime.fromtimestamp with tz=timezone.utc on an integer number
of seconds: the result is carried as the timestamp itself, and none models
the ValueError raised outside the supported year range 1 to 9999 (the bounds
are the UTC timestamps of 0001-01-01 00:00:00 and 9999-12-31 23:59:59 in the
proleptic Gregorian calendar). -/
def fromtimestampOpt (t : Int) : Option Int :=
  if -62135596800 ≤ t ∧ t ≤ 253402300799 then some t else none

/-- Model of the timestamp adaptor of line 58 of filter.py: int conversion
followed by UTC datetime construction. -/
def pyTimestamp (f : List Nat) : Option Int :=
  match pyIntOpt f with
  | some t => fromtimestampOpt t
  | none => none

/-- Model of the dataclass of lines 26 to 53 of filter.py: one parsed mpistat
record.  The path field keeps its base64 encoded text; timestamps are carried
as UTC epoch seconds. -/
structure MpistatRecord where
  _path : List Nat
  size : Int
  uid : Int
  gid : Int
  atime : Int
  mtime : Int
  ctime : Int
  mode : List Nat
  inode_id : Int
  hardlinks : Int
  dev_id : Int
  deriving DecidableEq, Repr

/-- On demand path property of lines 40 to 43 of filter.py: base64 decode of
the stored field followed by a UTF-8 text decode. -/
def mpistatRecord.path (r : MpistatRecord) : Option (List Nat) :=
  match b64decodeOpt r._path with
  | some bs => pyDecodeOpt bs
  | none => none

/-- On demand user name property of lines 45 to 48 of filter.py: resolves the
record uid through the identity collaborator pw (getpwuid); none models a
raised KeyError. -/
def mpistatRecord.user (pw : Int → Option (List Nat)) (r : MpistatRecord) : Option (List Nat) :=
  pw r.uid

/-- On demand group name property of lines 50 to 53 of filter.py.  The source
passes self.uid, not self.gid, to getgrgid; the model preserves that slip
faithfully, so the group database collaborator gr is consulted with the uid. -/
def mpistatRecord.group (pw gr : Int → Option (List Nat)) (r : MpistatRecord) : Option (List Nat) :=
  gr r.uid

/-- Field adaptor stage of the record constructor of lines 56 to 74 of
filter.py, applied to an already split field list: eleven fields are adapted
positionally (text, int, int, int, datetime, datetime, datetime, text, int,
int, int); any other field count fails the assertion on line 69. -/
def mpistatRecord.ofFields (fs : List (List Nat)) : Option MpistatRecord :=
  match fs with
  | [f0, f1, f2, f3, f4, f5, f6, f7, f8, f9, f10] =>
    match pyDecodeOpt f0, pyIntOpt f1, pyIntOpt f2, pyIntOpt f3 with
    | some p, some size, some uid, some gid =>
      match pyTimestamp f4, pyTimestamp f5, pyTimestamp f6 with
      | some ta, some tm, some tc =>
        match pyDecodeOpt f7, pyIntOpt f8, pyIntOpt f9, pyIntOpt f10 with
        | some mode, some ino, some hl, some dev =>
          some ⟨p, size, uid, gid, ta, tm, tc, mode, ino, hl, dev⟩
        | _, _, _, _ => none
      | _, _, _ => none
    | _, _, _, _ => none
  | _ => none

/-- Model of the record constructor of lines 56 to 74 of filter.py: split the
raw line on tab bytes and adapt the fields. -/
def mpistatRecord.ofLine (line : List Nat) : Option MpistatRecord :=
  mpistatRecord.ofFields (splitOnByte 9 line)

/-- Model of the directory filter state of lines 82 to 97 of filter.py: the
stored directory (kept as its raw string; all comparisons against it go
through the pathlib parse functions pathRoot and pathComps, which is exactly
the equality used on Path objects) and the precomputed base64 common
prefix. -/
structure DirectoryFilter where
  dirStr : List Nat
  base64Pref : List Nat
  deriving DecidableEq, Repr

/-- Model of directoryFilter construction, lines 86 to 97 of filter.py. -/
def directoryFilter.init (directory : List Nat) : DirectoryFilter :=
  { dirStr := directory
    base64Pref := commonPrefix2 (b64encode (dirWith directory)) (b64encode (dirWithout directory)) }

/-- Model of directoryFilter evaluation, lines 99 to 103 of filter.py.  The
source computes record.path before the boolean conjunction, so the base64 and
UTF-8 decodes run (and can raise) even when the prefix test already fails;
the prefix test and the ancestor test are then combined with and. -/
def directoryFilter.call (f : DirectoryFilter) (r : MpistatRecord) : Option Bool :=
  match mpistatRecord.path r with
  | some p => some (startsWithL f.base64Pref r._path && dirMember f.dirStr p)
  | none => none

/-- User or group identifier of the owner filter: a numeric id or a name. -/
inductive IdT where
  | num : Int → IdT
  | name : List Nat → IdT
  deriving DecidableEq, Repr

/-- Model of the owner filter state of lines 107 to 114 of filter.py. -/
structure OwnerFilter where
  user : Option IdT
  group : Option IdT
  deriving DecidableEq, Repr

/-- User constraint evaluation of lines 117 to 120 of filter.py: true when
absent, uid comparison for a numeric constraint, resolved user name
comparison for a name constraint. -/
def idMatchUser (pw : Int → Option (List Nat)) (r : MpistatRecord) : Option IdT → Option Bool
  | none => some true
  | some (IdT.num n) => some (n == r.uid)
  | some (IdT.name s) =>
    match pw r.uid with
    | some u => some (s == u)
    | none => none

/-- Group constraint evaluation of lines 122 to 125 of filter.py: true when
absent, gid comparison for a numeric constraint; for a name constraint the
source compares against record.user, the user name resolved from the uid
(not the group name from the gid), and the model preserves that slip. -/
def idMatchGroup (pw : Int → Option (List Nat)) (r : MpistatRecord) : Option IdT → Option Bool
  | none => some true
  | some (IdT.num n) => some (n == r.gid)
  | some (IdT.name s) =>
    match pw r.uid with
    | some u => some (s == u)
    | none => none

/-- Model of ownerFilter evaluation, lines 116 to 127 of filter.py: both
constraint results are computed and combined with and. -/
def ownerFilter.call (pw gr : Int → Option (List Nat)) (f : OwnerFilter) (r : MpistatRecord) :
    Option Bool :=
  match idMatchUser pw r f.user with
  | none => none
  | some um =>
    match idMatchGroup pw r f.group with
    | none => none
    | some gm => some (um && gm)

/-- Closed set of predicate variants held by the filter set (the subclasses
of AbstractRecordFilter in filter.py). -/
inductive RecordPred where
  | dir : DirectoryFilter → RecordPred
  | owner : OwnerFilter → RecordPred

/-- Dispatch of predicate evaluation on a record. -/
def RecordPred.eval (pw gr : Int → Option (List Nat)) : RecordPred → MpistatRecord → Option Bool
  | RecordPred.dir f, r => directoryFilter.call f r
  | RecordPred.owner f, r => ownerFilter.call pw gr f r

/-- Model of mpistatFilter evaluation, lines 144 to 145 of filter.py: any()
over the predicate list, which short circuits on the first true result and
propagates a raised exception from the predicate being evaluated. -/
def mpistatFilter.call (pw gr : Int → Option (List Nat)) :
    List RecordPred → MpistatRecord → Option Bool
  | [], _ => some false
  | f :: rest, r =>
    match RecordPred.eval pw gr f r with
    | none => none
    | some true => some true
    | some false => mpistatFilter.call pw gr rest r

/-- Model of the stream loop of lines 189 to 197 of filter.py: each line is
parsed into a record, the filter set is evaluated, and the raw line is
written to the output exactly when the filter returns true; a raised
exception anywhere aborts the whole run (none). -/
def driver (pw gr : Int → Option (List Nat)) (fs : List RecordPred) :
    List (List Nat) → Option (List (List Nat))
  | [] => some []
  | line :: rest =>
    match mpistatRecord.ofLine line with
    | none => none
    | some r =>
      match mpistatFilter.call pw gr fs r with
      | none => none
      | some b =>
        match driver pw gr fs rest with
        | some out => some (if b then line :: out else out)
        | none => none

/-- Acceptance of a single line by the filter set: the parsed record exists
and the filter returns true. -/
def lineMatches (pw gr : Int → Option (List Nat)) (fs : List RecordPred) (l : List Nat) : Bool :=
  match mpistatRecord.ofLine l with
  | some r => decide (mpistatFilter.call pw gr fs r = some true)
  | none => false

/-- Timestamp field acceptance following the words of the spec for claim C6,
amended with the supported datetime year range: the field parses as an
integer that datetime.fromtimestamp accepts. -/
def tsInRange (f : List Nat) : Bool :=
  match pyIntOpt f with
  | some t => decide (-62135596800 ≤ t ∧ t ≤ 253402300799)
  | none => false

/-- Well formedness of a split field list, following the words of claim C6
amended by the counterexample below: exactly eleven fields, the nine numeric
fields parse as integers, and additionally the path and mode fields are
decodable UTF-8 text and the three timestamp fields lie in the supported
datetime range. -/
def specFieldsOK (fs : List (List Nat)) : Bool :=
  match fs with
  | [f0, f1, f2, f3, f4, f5, f6, f7, f8, f9, f10] =>
    validUtf8 f0 && (pyIntOpt f1).isSome && (pyIntOpt f2).isSome && (pyIntOpt f3).isSome &&
    tsInRange f4 && tsInRange f5 && tsInRange f6 && validUtf8 f7 &&
    (pyIntOpt f8).isSome && (pyIntOpt f9).isSome && (pyIntOpt f10).isSome
  | _ => false

/-- Well formedness of a raw line: the tab split fields are well formed. -/
def specLineOK (line : List Nat) : Bool :=
  specFieldsOK (splitOnByte 9 line)

/-- Record with the given encoded path field and fixed scalar fields, used in
the concrete evaluations below. -/
def recWithPath (p : List Nat) : MpistatRecord :=
  ⟨p, 0, 0, 0, 0, 0, 0, [100], 0, 0, 0⟩

/-- Line whose path field is the single byte 255 and whose remaining ten
fields are 0, 0, 0, 0, 0, 0, d, 0, 0, 0. -/
def badLine : List Nat :=
  [255, 9, 48, 9, 48, 9, 48, 9, 48, 9, 48, 9, 48, 9, 100, 9, 48, 9, 48, 9, 48]

/-- Ten well formed trailing fields (0, 0, 0, 0, 0, 0, d, 0, 0, 0) preceded
by their leading tab, to be appended after a path field. -/
def restLine : List Nat :=
  [9, 48, 9, 48, 9, 48, 9, 48, 9, 48, 9, 48, 9, 100, 9, 48, 9, 48, 9, 48]

/-- Identity collaborator mapping uid 1 to the user name alice. -/
def pwEx : Int → Option (List Nat) :=
  fun i => if i = 1 then some [97, 108, 105, 99, 101] else none

/-- Identity collaborator mapping gid 2 to the group name staff. -/
def grEx : Int → Option (List Nat) :=
  fun i => if i = 2 then some [115, 116, 97, 102, 102] else none

/-- Record owned by uid 1 and gid 2. -/
def recEx : MpistatRecord :=
  ⟨[65], 0, 1, 2, 0, 0, 0, [100], 0, 0, 0⟩

/-- Identity collaborator that knows no identity at all. -/
def pw0 : Int → Option (List Nat) := fun _ => none

/-- Filter set holding one owner predicate for the numeric uid 0. -/
def fs1 : List RecordPred := [RecordPred.owner ⟨some (IdT.num 0), none⟩]

/-- Record with uid 0. -/
def rec0 : MpistatRecord := ⟨[65], 0, 0, 0, 0, 0, 0, [100], 0, 0, 0⟩

/-- Line with path field QQ== and all numeric fields 0. -/
def goodLine : List Nat :=
  [81, 81, 61, 61, 9, 48, 9, 48, 9, 48, 9, 48, 9, 48, 9, 48, 9, 100, 9, 48, 9, 48, 9, 48]

theorem startsWithL_iff {α : Type} [DecidableEq α] :
    ∀ p s : List α, startsWithL p s = true ↔ p <+: s := by
  intro p
  induction p with
  | nil => intro s; simp [startsWithL]
  | cons a as ih =>
    intro s
    cases s with
    | nil => simp [startsWithL]
    | cons b bs =>
      by_cases h : a = b
      · subst h
        simp [startsWithL, ih, List.cons_prefix_cons]
      · simp [startsWithL, h, List.cons_prefix_cons]

theorem b64char_le (n : Nat) : b64char n ≤ 122 := by
  unfold b64char
  split_ifs <;> omega

theorem b64char_ne_61 (n : Nat) : b64char n ≠ 61 := by
  unfold b64char
  split_ifs <;> omega

theorem b64char_inj {m n : Nat} (hm : m ≤ 63) (hn : n ≤ 63)
    (h : b64char m = b64char n) : m = n := by
  unfold b64char at h
  split_ifs at h <;> omega

theorem b64charInv_b64char {n : Nat} (h : n ≤ 63) :
    b64charInv (b64char n) = some n := by
  unfold b64char b64charInv
  split_ifs <;> simp_all <;> omega

example : b64encode [47, 117, 115, 114] = [76, 51, 86, 122, 99, 103, 61, 61] := by decide

example : b64decodeOpt [76, 51, 86, 122, 99, 103, 61, 61] = some [47, 117, 115, 114] := by decide

/-- Induction principle for lists consumed three elements at a time, matching
the recursion pattern of the base64 encoder. -/
theorem list3_ind {α : Type} {P : List α → Prop} (h0 : P []) (h1 : ∀ a, P [a])
    (h2 : ∀ a b, P [a, b]) (h3 : ∀ a b c l, P l → P (a :: b :: c :: l)) :
    ∀ l, P l
  | [] => h0
  | [a] => h1 a
  | [a, b] => h2 a b
  | a :: b :: c :: rest => h3 a b c rest (list3_ind h0 h1 h2 h3 rest)

theorem commonPrefix2_nil_right (l : List Nat) : commonPrefix2 l [] = [] := by
  cases l <;> rfl

theorem commonPrefix2_cons (x : Nat) (u v : List Nat) :
    commonPrefix2 (x :: u) (x :: v) = x :: commonPrefix2 u v := by
  simp [commonPrefix2]

theorem startsWithL_append_same {α : Type} [DecidableEq α] :
    ∀ (x u v : List α), startsWithL (x ++ u) (x ++ v) = startsWithL u v := by
  intro x
  induction x with
  | nil => intro u v; rfl
  | cons a as ih => intro u v; simp [startsWithL, ih]

theorem b64encode_head (a : Nat) (t : List Nat) :
    ∃ u, b64encode (a :: t) = b64c1 a :: u := by
  match t with
  | [] => exact ⟨_, rfl⟩
  | [b] => exact ⟨_, rfl⟩
  | b :: c :: r => exact ⟨_, rfl⟩

/-- Core superset property of the base64 common prefix trick: whenever a byte
string q equals s or extends s with a slash, the base64 encoding of q starts
with the common prefix of the encodings of s with and without a trailing
slash. -/
theorem commonPre_superset :
    ∀ s q : List Nat, (q = s ∨ (s ++ [47]) <+: q) →
      startsWithL (commonPrefix2 (b64encode (s ++ [47])) (b64encode s)) (b64encode q) = true := by
  intro s
  induction s using list3_ind with
  | h0 =>
    intro q h
    simp [b64encode, commonPrefix2_nil_right, startsWithL]
  | h1 a =>
    intro q h
    have hc2 : b64c2 a 47 ≠ b64c2 a 0 := by
      intro hc
      have := b64char_inj (m := a % 4 * 16 + 47 / 16) (n := a % 4 * 16 + 0 / 16)
        (by omega) (by omega) hc
      omega
    have hpre : commonPrefix2 (b64encode ([a] ++ [47])) (b64encode [a]) = [b64c1 a] := by
      show commonPrefix2 [b64c1 a, b64c2 a 47, b64c3 47 0, 61] [b64c1 a, b64c2 a 0, 61, 61] = _
      simp [commonPrefix2, hc2]
    rw [hpre]
    rcases h with h | ⟨t, ht⟩
    · subst h
      simp [b64encode, startsWithL]
    · have hq : q = a :: (47 :: t) := by simpa using ht.symm
      subst hq
      obtain ⟨u, hu⟩ := b64encode_head a (47 :: t)
      rw [hu]
      simp [startsWithL]
  | h2 a b =>
    intro q h
    have hc3 : b64c3 b 47 = b64c3 b 0 := by
      unfold b64c3
      norm_num
    have hc4 : b64c4 47 ≠ 61 := by decide
    have hpre : commonPrefix2 (b64encode ([a, b] ++ [47])) (b64encode [a, b]) =
        [b64c1 a, b64c2 a b, b64c3 b 47] := by
      show commonPrefix2 [b64c1 a, b64c2 a b, b64c3 b 47, b64c4 47]
        [b64c1 a, b64c2 a b, b64c3 b 0, 61] = _
      rw [hc3]
      simp only [commonPrefix2_cons]
      simp [commonPrefix2, hc4]
    rw [hpre]
    rcases h with h | ⟨t, ht⟩
    · subst h
      simp [b64encode, startsWithL, hc3]
    · have hq : q = a :: b :: 47 :: t := by simpa using ht.symm
      subst hq
      show startsWithL _ (b64c1 a :: b64c2 a b :: b64c3 b 47 :: b64c4 47 :: b64encode t) = true
      simp [startsWithL]
  | h3 a b c l ih =>
    intro q h
    have hq : ∃ t, q = a :: b :: c :: t ∧ (t = l ∨ (l ++ [47]) <+: t) := by
      rcases h with h | ⟨t, ht⟩
      · exact ⟨l, h, Or.inl rfl⟩
      · refine ⟨(l ++ [47]) ++ t, ?_, Or.inr ⟨t, rfl⟩⟩
        simpa using ht.symm
    obtain ⟨t, hqe, hrel⟩ := hq
    subst hqe
    show startsWithL
      (commonPrefix2
        (b64c1 a :: b64c2 a b :: b64c3 b c :: b64c4 c :: b64encode (l ++ [47]))
        (b64c1 a :: b64c2 a b :: b64c3 b c :: b64c4 c :: b64encode l))
      (b64c1 a :: b64c2 a b :: b64c3 b c :: b64c4 c :: b64encode t) = true
    simp only [commonPrefix2_cons]
    have := startsWithL_append_same (α := Nat)
      [b64c1 a, b64c2 a b, b64c3 b c, b64c4 c]
      (commonPrefix2 (b64encode (l ++ [47])) (b64encode l)) (b64encode t)
    simp only [List.cons_append, List.nil_append] at this
    rw [this]
    exact ih t hrel

/-- Round trip of the base64 model: decoding a canonical encoding of a byte
string recovers the byte string. -/
theorem b64decode_encode :
    ∀ p : List Nat, (∀ x ∈ p, x < 256) → b64decodeOpt (b64encode p) = some p := by
  intro p
  induction p using list3_ind with
  | h0 => intro _; rfl
  | h1 a =>
    intro hb
    have ha : a < 256 := hb a (by simp)
    show b64decodeOpt [b64c1 a, b64c2 a 0, 61, 61] = some [a]
    unfold b64decodeOpt
    rw [show b64c1 a = b64char (a / 4) from rfl, show b64c2 a 0 = b64char (a % 4 * 16 + 0 / 16) from rfl]
    rw [b64charInv_b64char (by omega), b64charInv_b64char (by omega)]
    simp
    omega
  | h2 a b =>
    intro hb
    have ha : a < 256 := hb a (by simp)
    have hbb : b < 256 := hb b (by simp)
    show b64decodeOpt [b64c1 a, b64c2 a b, b64c3 b 0, 61] = some [a, b]
    unfold b64decodeOpt
    rw [show b64c1 a = b64char (a / 4) from rfl, show b64c2 a b = b64char (a % 4 * 16 + b / 16) from rfl,
      show b64c3 b 0 = b64char (b % 16 * 4 + 0 / 64) from rfl]
    rw [b64charInv_b64char (by omega), b64charInv_b64char (by omega)]
    simp [b64char_ne_61]
    rw [b64charInv_b64char (by omega)]
    simp
    constructor <;> omega
  | h3 a b c l ih =>
    intro hb
    have ha : a < 256 := hb a (by simp)
    have hbb : b < 256 := hb b (by simp)
    have hc : c < 256 := hb c (by simp)
    have hl : ∀ x ∈ l, x < 256 := fun x hx => hb x (by simp [hx])
    show b64decodeOpt (b64c1 a :: b64c2 a b :: b64c3 b c :: b64c4 c :: b64encode l) = some (a :: b :: c :: l)
    unfold b64decodeOpt
    rw [show b64c1 a = b64char (a / 4) from rfl, show b64c2 a b = b64char (a % 4 * 16 + b / 16) from rfl,
      show b64c3 b c = b64char (b % 16 * 4 + c / 64) from rfl,
      show b64c4 c = b64char (c % 64) from rfl]
    rw [b64charInv_b64char (by omega), b64charInv_b64char (by omega)]
    simp [b64char_ne_61]
    rw [b64charInv_b64char (by omega), b64charInv_b64char (by omega)]
    simp [ih hl]
    refine ⟨by omega, by omega, by omega⟩

example : isNormal [47] := by decide

example : isNormal [47, 97, 47, 98] := by decide

example : ¬ isNormal [47, 97, 47, 47, 98] := by decide

example : ¬ isNormal [47, 97, 47] := by decide

example : dirMember [47, 97, 47, 98] [47, 97, 47, 47, 98] = true := by decide

theorem dirMember_iff (d p : List Nat) :
    dirMember d p = true ↔ pathRoot d = pathRoot p ∧ pathComps d <+: pathComps p := by
  unfold dirMember ancChain
  rw [Bool.and_eq_true, beq_iff_eq]
  constructor
  · rintro ⟨h1, h2⟩
    refine ⟨h1, ?_⟩
    rw [List.contains_iff_exists_mem_beq] at h2
    obtain ⟨x, hx, hbeq⟩ := h2
    obtain ⟨k, _, rfl⟩ := by simpa using hx
    have := eq_of_beq hbeq
    rw [this]
    exact List.take_prefix k (pathComps p)
  · rintro ⟨h1, h2⟩
    refine ⟨h1, ?_⟩
    rw [List.contains_iff_exists_mem_beq]
    refine ⟨pathComps d, ?_, by simp⟩
    simp only [List.mem_map, List.mem_reverse, List.mem_range]
    have hlen : (pathComps d).length ≤ (pathComps p).length := h2.length_le
    exact ⟨(pathComps d).length, by omega, (List.prefix_iff_eq_take.mp h2).symm⟩

theorem joinSlash_cons (c : List Nat) (rest : List (List Nat)) (h : rest ≠ []) :
    joinSlash (c :: rest) = c ++ 47 :: joinSlash rest := by
  cases rest with
  | nil => exact absurd rfl h
  | cons c2 r2 => rfl

theorem joinSlash_append :
    ∀ (cd r : List (List Nat)), cd ≠ [] → r ≠ [] →
      joinSlash (cd ++ r) = joinSlash cd ++ 47 :: joinSlash r := by
  intro cd
  induction cd with
  | nil => intro r h; exact absurd rfl h
  | cons c cd2 ih =>
    intro r _ hr
    cases cd2 with
    | nil =>
      rw [List.singleton_append, joinSlash_cons c r hr]
      rfl
    | cons c2 cd3 =>
      rw [List.cons_append, joinSlash_cons c ((c2 :: cd3) ++ r) (by simp),
        joinSlash_cons c (c2 :: cd3) (by simp), ih r (by simp) hr]
      simp

theorem mem_of_getLastSome :
    ∀ (l : List Nat) (x : Nat), l.getLast? = some x → x ∈ l := by
  intro l
  induction l with
  | nil => simp
  | cons a t ih =>
    intro x h
    cases t with
    | nil => simp_all
    | cons b t2 =>
      rw [List.getLast?_cons_cons] at h
      exact List.mem_cons_of_mem a (ih x h)

theorem getLast?_cons_of_ne (x : Nat) (t : List Nat) (h : t ≠ []) :
    (x :: t).getLast? = t.getLast? := by
  cases t with
  | nil => exact absurd rfl h
  | cons b t2 => exact List.getLast?_cons_cons

theorem getLast?_append_right :
    ∀ (l t : List Nat), t ≠ [] → (l ++ t).getLast? = t.getLast? := by
  intro l t h
  induction l with
  | nil => rfl
  | cons a l2 ih =>
    rw [List.cons_append, getLast?_cons_of_ne a (l2 ++ t) (by simp [h]), ih]

theorem joinSlash_last :
    ∀ cd : List (List Nat), cd ≠ [] → (∀ c ∈ cd, c ≠ [] ∧ 47 ∉ c) →
      joinSlash cd ≠ [] ∧ (joinSlash cd).getLast? ≠ some 47 := by
  intro cd
  induction cd with
  | nil => intro h; exact absurd rfl h
  | cons c cd2 ih =>
    intro _ hv
    obtain ⟨hc_ne, hc47⟩ := hv c (by simp)
    cases cd2 with
    | nil =>
      refine ⟨hc_ne, fun h => hc47 (mem_of_getLastSome c 47 h)⟩
    | cons c2 cd3 =>
      obtain ⟨hj_ne, hj_last⟩ := ih (by simp) (fun x hx => hv x (List.mem_cons_of_mem c hx))
      rw [joinSlash_cons c (c2 :: cd3) (by simp)]
      refine ⟨by simp, ?_⟩
      rw [getLast?_append_right c (47 :: joinSlash (c2 :: cd3)) (by simp),
        getLast?_cons_of_ne 47 (joinSlash (c2 :: cd3)) hj_ne]
      exact hj_last

theorem splitOnByte_cons_sep (sep : Nat) (rest : List Nat) :
    splitOnByte sep (sep :: rest) = [] :: splitOnByte sep rest := by
  simp [splitOnByte]

theorem splitOnByte_cons_ne (sep x : Nat) (rest : List Nat) (hx : x ≠ sep) :
    splitOnByte sep (x :: rest) =
      match splitOnByte sep rest with
      | h :: t => (x :: h) :: t
      | [] => [[x]] := by
  simp [splitOnByte, hx]

theorem splitOnByte_ne_nil_and_no_sep :
    ∀ s : List Nat, splitOnByte 47 s ≠ [] ∧ ∀ c ∈ splitOnByte 47 s, 47 ∉ c := by
  intro s
  induction s with
  | nil =>
    refine ⟨by simp [splitOnByte], ?_⟩
    intro c hc
    simp [splitOnByte] at hc
    simp [hc]
  | cons x rest ih =>
    obtain ⟨h1, h2⟩ := ih
    by_cases hx : x = 47
    · subst hx
      rw [splitOnByte_cons_sep]
      refine ⟨by simp, ?_⟩
      intro c hc
      rcases List.mem_cons.mp hc with h | h
      · simp [h]
      · exact h2 c h
    · cases hr : splitOnByte 47 rest with
      | nil => exact absurd hr h1
      | cons h t =>
        rw [splitOnByte_cons_ne 47 x rest hx, hr]
        refine ⟨by simp, ?_⟩
        intro c hc
        rcases List.mem_cons.mp hc with hch | hct
        · subst hch
          intro hmem
          rcases List.mem_cons.mp hmem with h47 | h47
          · exact hx h47.symm
          · exact h2 h (by rw [hr]; exact List.mem_cons_self h t) h47
        · exact h2 c (by rw [hr]; exact List.mem_cons_of_mem h hct)

theorem pathComps_facts (s c : List Nat) (hc : c ∈ pathComps s) :
    c ≠ [] ∧ c ≠ [46] ∧ 47 ∉ c := by
  unfold pathComps at hc
  obtain ⟨hmem, hdec⟩ := List.mem_filter.mp hc
  have hp := of_decide_eq_true hdec
  exact ⟨hp.1, hp.2, (splitOnByte_ne_nil_and_no_sep s).2 c hmem⟩

theorem dropLast_getLast :
    ∀ (d : List Nat) (x : Nat), d.getLast? = some x → d.dropLast ++ [x] = d := by
  intro d
  induction d with
  | nil => simp
  | cons a t ih =>
    intro x h
    cases t with
    | nil =>
      rw [List.getLast?_singleton] at h
      simp_all
    | cons b t2 =>
      rw [List.getLast?_cons_cons] at h
      have h2 := ih x h
      show a :: (b :: t2).dropLast ++ [x] = a :: b :: t2
      rw [List.cons_append, h2]

theorem dirWith_eq (d : List Nat) : dirWith d = dirWithout d ++ [47] := by
  unfold dirWithout dirWith
  by_cases h : d.getLast? = some 47
  · rw [if_pos h]
    conv_lhs => rw [← dropLast_getLast d 47 h]
  · rw [if_neg h, List.dropLast_concat]

theorem isNormal_root (p : List Nat) (hp : isNormal p) : pathRoot p = 1 := by
  conv_lhs => rw [hp]
  cases hc : pathComps p with
  | nil => simp [joinSlash, pathRoot]
  | cons c rest =>
    obtain ⟨hne, _, h47⟩ := pathComps_facts p c (by rw [hc]; exact List.mem_cons_self c rest)
    cases c with
    | nil => exact absurd rfl hne
    | cons y ys =>
      have hy : y ≠ 47 := fun h => h47 (h ▸ List.mem_cons_self y ys)
      cases rest with
      | nil => simp [joinSlash, pathRoot, hy]
      | cons c2 rest2 =>
        rw [joinSlash_cons (y :: ys) (c2 :: rest2) (by simp)]
        simp [pathRoot, hy]

theorem isNormal_no_trailing (d : List Nat) (hd : isNormal d) (c : List Nat)
    (cd2 : List (List Nat)) (hc : pathComps d = c :: cd2) :
    dirWith d = d ++ [47] ∧ dirWithout d = d := by
  have hvalid : ∀ x ∈ pathComps d, x ≠ [] ∧ 47 ∉ x := by
    intro x hx
    obtain ⟨h1, _, h3⟩ := pathComps_facts d x hx
    exact ⟨h1, h3⟩
  obtain ⟨hj_ne, hj_last⟩ := joinSlash_last (pathComps d) (by rw [hc]; simp) hvalid
  have hlast : d.getLast? ≠ some 47 := by
    rw [hd, getLast?_cons_of_ne 47 (joinSlash (pathComps d)) hj_ne]
    exact hj_last
  have h1 : dirWith d = d ++ [47] := by
    unfold dirWith
    rw [if_neg hlast]
  refine ⟨h1, ?_⟩
  unfold dirWithout
  rw [h1, List.dropLast_concat]

/-- Bridge from the pathlib component relation back to the raw byte strings:
for normal form strings, component containment of d in p means that p is
exactly d or extends d with a slash. -/
theorem isNormal_raw (d p : List Nat) (hd : isNormal d) (hp : isNormal p)
    (h : pathComps d <+: pathComps p) : p = dirWithout d ∨ dirWith d <+: p := by
  obtain ⟨r, hr⟩ := h
  cases hcd : pathComps d with
  | nil =>
    right
    have hd1 : d = [47] := by
      conv_lhs => rw [hd]
      rw [hcd]
      rfl
    have hwith : dirWith d = [47] := by
      rw [hd1]
      rfl
    rw [hwith, hp]
    exact ⟨joinSlash (pathComps p), rfl⟩
  | cons c cd2 =>
    obtain ⟨hdw, hdwo⟩ := isNormal_no_trailing d hd c cd2 hcd
    rw [hcd] at hr
    cases r with
    | nil =>
      left
      rw [hdwo, hp, hd]
      rw [List.append_nil] at hr
      rw [← hr, hcd]
    | cons r1 r2 =>
      right
      rw [hdw]
      have hpj : p = d ++ 47 :: joinSlash (r1 :: r2) := by
        rw [hp, ← hr, joinSlash_append (c :: cd2) (r1 :: r2) (by simp) (by simp), hd, hcd]
        simp
      exact ⟨joinSlash (r1 :: r2), by rw [hpj]; simp⟩

example : pyIntOpt [48] = some 0 := by decide

example : pyIntOpt [49, 50, 10] = some 12 := by decide

example : pyIntOpt [45, 53] = some (-5) := by decide

example : pyIntOpt [100] = none := by decide

example : pyIntOpt [] = none := by decide

example : validUtf8 [76, 51, 86, 122] = true := by decide

example : validUtf8 [255] = false := by decide

example : validUtf8 [206, 187] = true := by decide

theorem pyDecodeOpt_isSome (s : List Nat) : (pyDecodeOpt s).isSome = validUtf8 s := by
  cases hv : validUtf8 s <;> simp [pyDecodeOpt, hv]

theorem tsInRange_eq (f : List Nat) : (pyTimestamp f).isSome = tsInRange f := by
  unfold pyTimestamp tsInRange
  cases pyIntOpt f with
  | none => rfl
  | some t =>
    by_cases h : -62135596800 ≤ t ∧ t ≤ 253402300799
    · simp [fromtimestampOpt, h]
    · simp [fromtimestampOpt, h]

theorem splitOnByte_append_cons (sep : Nat) :
    ∀ (c rest : List Nat), sep ∉ c →
      splitOnByte sep (c ++ sep :: rest) = c :: splitOnByte sep rest := by
  intro c
  induction c with
  | nil =>
    intro rest h
    rw [List.nil_append, splitOnByte_cons_sep]
  | cons x c2 ih =>
    intro rest h
    have hx : x ≠ sep := fun he => h (he ▸ List.mem_cons_self x c2)
    rw [List.cons_append, splitOnByte_cons_ne sep x (c2 ++ sep :: rest) hx,
      ih rest (fun hm => h (List.mem_cons_of_mem x hm))]

theorem splitOnByte_ne_nil (sep : Nat) : ∀ s : List Nat, splitOnByte sep s ≠ [] := by
  intro s
  induction s with
  | nil => simp [splitOnByte]
  | cons x rest ih =>
    by_cases hx : x = sep
    · subst hx
      rw [splitOnByte_cons_sep]
      simp
    · rw [splitOnByte_cons_ne sep x rest hx]
      cases hs : splitOnByte sep rest with
      | nil => simp
      | cons h t => simp

theorem splitOnByte_concat_sep (sep : Nat) :
    ∀ d : List Nat, splitOnByte sep (d ++ [sep]) = splitOnByte sep d ++ [[]] := by
  intro d
  induction d with
  | nil =>
    rw [List.nil_append, splitOnByte_cons_sep]
    rfl
  | cons x d2 ih =>
    by_cases hx : x = sep
    · subst hx
      rw [List.cons_append, splitOnByte_cons_sep, splitOnByte_cons_sep, ih]
      rfl
    · rw [List.cons_append, splitOnByte_cons_ne sep x (d2 ++ [sep]) hx,
        splitOnByte_cons_ne sep x d2 hx, ih]
      cases hs : splitOnByte sep d2 with
      | nil => exact absurd hs (splitOnByte_ne_nil sep d2)
      | cons h t => simp

theorem pathComps_concat_sep (d : List Nat) : pathComps (d ++ [47]) = pathComps d := by
  unfold pathComps
  rw [splitOnByte_concat_sep 47 d, List.filter_append]
  simp

theorem pathRoot_concat_sep (d : List Nat) (h0 : d ≠ []) (h47 : d.getLast? ≠ some 47) :
    pathRoot (d ++ [47]) = pathRoot d := by
  match d with
  | [a] =>
    have ha : a ≠ 47 := by
      intro he
      exact h47 (by rw [he, List.getLast?_singleton])
    simp [pathRoot, List.headD, ha]
  | [a, b] =>
    have hb : b ≠ 47 := by
      intro he
      exact h47 (by rw [he]; rfl)
    simp [pathRoot, List.headD, hb]
  | a :: b :: c :: t => rfl

/-- Superset property stated on the constructed filter: whenever the decoded
byte string q is exactly the stored directory without its trailing slash, or
extends the trailing slash form, the encoding of q passes the prefix test. -/
theorem init_base64Pref_superset (d q : List Nat)
    (h : q = dirWithout d ∨ dirWith d <+: q) :
    startsWithL (directoryFilter.init d).base64Pref (b64encode q) = true := by
  show startsWithL (commonPrefix2 (b64encode (dirWith d)) (b64encode (dirWithout d)))
    (b64encode q) = true
  rw [dirWith_eq d]
  exact commonPre_superset (dirWithout d) q (by rw [← dirWith_eq d]; exact h)

/-- Claim C1 (amended): for every directory string d and every record whose
decoded path byte string q is exactly the normalised directory (the trailing
slash form with its final slash removed) or extends the trailing slash form,
the canonical base64 encoding of q starts with the stored base64 prefix, so
the fast reject test never rejects such a record.  The amendment restricts
the claim to records whose decoded path is related to d as a raw string:
a record whose decoded path only reaches the subtree after pathlib
normalisation (for example through a doubled slash) can be rejected, as the
counterexample shows. -/
theorem directoryFilter_fastReject_superset (d q : List Nat)
    (h : q = dirWithout d ∨ dirWith d <+: q) :
    startsWithL (directoryFilter.init d).base64Pref (b64encode q) = true :=
  init_base64Pref_superset d q h

/-- Witness for claim C1 at the directory /a/b and the decoded path /a/b/c. -/
theorem directoryFilter_fastReject_superset_witness :
    startsWithL (directoryFilter.init [47, 97, 47, 98]).base64Pref
      (b64encode [47, 97, 47, 98, 47, 99]) = true :=
  directoryFilter_fastReject_superset [47, 97, 47, 98] [47, 97, 47, 98, 47, 99]
    (Or.inr (by decide))

/-- Counterexample to claim C1 as stated: the record with encoded path
b64encode of /a//b decodes to a path whose pathlib value equals the directory
/a/b (dirMember holds), yet its encoded path does not start with the base64
prefix computed for /a/b, so the fast reject drops a record the exact decoded
check accepts. -/
theorem directoryFilter_fastReject_missing_normalisation :
    mpistatRecord.path (recWithPath (b64encode [47, 97, 47, 47, 98])) =
      some [47, 97, 47, 47, 98] ∧
    dirMember [47, 97, 47, 98] [47, 97, 47, 47, 98] = true ∧
    startsWithL (directoryFilter.init [47, 97, 47, 98]).base64Pref
      (recWithPath (b64encode [47, 97, 47, 47, 98]))._path = false := by
  decide

/-- Claim C3: refuted by the code.  On a record whose encoded path is the
single byte A, the prefix test for directory /a/b fails, so the claim demands
a false result with no decoding; but line 100 of filter.py computes
record.path before the conjunction, so the base64 decode runs first and
raises (the call evaluates to none, not some false). -/
theorem directoryFilter_eager_decode :
    startsWithL (directoryFilter.init [47, 97, 47, 98]).base64Pref
      (recWithPath [65])._path = false ∧
    directoryFilter.call (directoryFilter.init [47, 97, 47, 98]) (recWithPath [65]) = none := by
  decide

/-- Claim C4: refuted by the code.  The record recEx has uid 1 (user name
alice) and gid 2 (group name staff); the owner filter constrained to the
group name staff should match, since the group name resolved from the gid is
staff, but lines 122 to 125 of filter.py compare the constraint against
record.user, the user name resolved from the uid, so the filter answers
false. -/
theorem ownerFilter_group_name_from_uid :
    grEx recEx.gid = some [115, 116, 97, 102, 102] ∧
    mpistatRecord.user pwEx recEx = some [97, 108, 105, 99, 101] ∧
    ownerFilter.call pwEx grEx ⟨none, some (IdT.name [115, 116, 97, 102, 102])⟩ recEx =
      some false := by
  decide

/-- Claim C9: an owner filter holding only a numeric user id answers some
true exactly when the record uid equals that id, for every record and every
identity collaborator (so independently of the gid and of any name
resolution), and always answers without raising. -/
theorem ownerFilter_numeric_user_only (pw gr : Int → Option (List Nat)) (n : Int)
    (r : MpistatRecord) :
    (ownerFilter.call pw gr ⟨some (IdT.num n), none⟩ r = some true ↔ r.uid = n) ∧
    (ownerFilter.call pw gr ⟨some (IdT.num n), none⟩ r).isSome = true := by
  have h1 : ownerFilter.call pw gr ⟨some (IdT.num n), none⟩ r = some ((n == r.uid) && true) :=
    rfl
  rw [h1, Bool.and_true]
  refine ⟨?_, rfl⟩
  constructor
  · intro h
    exact (eq_of_beq (Option.some.inj h)).symm
  · intro h
    rw [h]
    simp

/-- Claim C2 (amended): for a directory string d and a decoded path p that
are both in normal form (leading slash, components joined by single slashes,
no empty or dot components, no trailing slash), with p a valid UTF-8 byte
string, the directory filter built from d answers some true on a record
carrying the canonical encoding of p exactly when the pathlib membership test
holds (p equals d or d is an ancestor of p).  The amendment adds the normal
form requirement: outside it the prefix fast path can reject a record whose
normalised path lies in the subtree, as the counterexample shows. -/
theorem directoryFilter_match_iff (d p : List Nat) (r : MpistatRecord)
    (hr : r._path = b64encode p) (hd : isNormal d) (hp : isNormal p)
    (hb : ∀ x ∈ p, x < 256) (hv : validUtf8 p = true) :
    directoryFilter.call (directoryFilter.init d) r = some true ↔ dirMember d p = true := by
  have hpath : mpistatRecord.path r = some p := by
    unfold mpistatRecord.path
    rw [hr, b64decode_encode p hb]
    show pyDecodeOpt p = some p
    unfold pyDecodeOpt
    rw [if_pos hv]
  unfold directoryFilter.call
  rw [hpath, hr]
  show some (startsWithL (directoryFilter.init d).base64Pref (b64encode p) &&
    dirMember d p) = some true ↔ dirMember d p = true
  simp only [Option.some.injEq, Bool.and_eq_true]
  constructor
  · exact fun h => h.2
  · intro h
    refine ⟨?_, h⟩
    obtain ⟨hroot, hcomp⟩ := (dirMember_iff d p).mp h
    exact init_base64Pref_superset d p (isNormal_raw d p hd hp hcomp)

/-- Witness for claim C2 at the directory /a and the decoded path /a/c. -/
theorem directoryFilter_match_iff_witness :
    directoryFilter.call (directoryFilter.init [47, 97])
      (recWithPath (b64encode [47, 97, 47, 99])) = some true :=
  (directoryFilter_match_iff [47, 97] [47, 97, 47, 99]
    (recWithPath (b64encode [47, 97, 47, 99])) rfl (by decide) (by decide)
    (by decide) (by decide)).mpr (by decide)

/-- Counterexample to claim C2 as stated: the record with encoded path
b64encode of /x//y has a decoded path whose pathlib value equals the
directory /x/y, so the claimed equivalence demands a true answer, but the
filter answers some false because the encoded path fails the prefix test. -/
theorem directoryFilter_match_missing_normalisation :
    dirMember [47, 120, 47, 121] [47, 120, 47, 47, 121] = true ∧
    mpistatRecord.path (recWithPath (b64encode [47, 120, 47, 47, 121])) =
      some [47, 120, 47, 47, 121] ∧
    directoryFilter.call (directoryFilter.init [47, 120, 47, 121])
      (recWithPath (b64encode [47, 120, 47, 47, 121])) = some false := by
  decide

/-- Claim C5 (amended): for every nonempty directory string d that does not
already end with a slash, the filters built from d with a trailing slash and
from d behave identically on every record.  The amendment excludes the
degenerate strings whose trailing slash is part of the POSIX root: the pair
of the one byte string slash and the empty string (and likewise a double
slash against a single slash) construct filters that differ, as the
counterexample shows. -/
theorem directoryFilter_trailing_slash_equiv (d : List Nat) (h0 : d ≠ [])
    (h47 : d.getLast? ≠ some 47) (r : MpistatRecord) :
    directoryFilter.call (directoryFilter.init (d ++ [47])) r =
      directoryFilter.call (directoryFilter.init d) r := by
  have hw1 : dirWith (d ++ [47]) = d ++ [47] := by
    unfold dirWith
    rw [if_pos (List.getLast?_concat d)]
  have hw2 : dirWith d = d ++ [47] := by
    unfold dirWith
    rw [if_neg h47]
  have hwo1 : dirWithout (d ++ [47]) = d := by
    unfold dirWithout
    rw [hw1, List.dropLast_concat]
  have hwo2 : dirWithout d = d := by
    unfold dirWithout
    rw [hw2, List.dropLast_concat]
  have hpre : (directoryFilter.init (d ++ [47])).base64Pref =
      (directoryFilter.init d).base64Pref := by
    show commonPrefix2 (b64encode (dirWith (d ++ [47]))) (b64encode (dirWithout (d ++ [47]))) =
      commonPrefix2 (b64encode (dirWith d)) (b64encode (dirWithout d))
    rw [hw1, hw2, hwo1, hwo2]
  have hmem : ∀ p, dirMember (d ++ [47]) p = dirMember d p := by
    intro p
    unfold dirMember
    rw [pathRoot_concat_sep d h0 h47, pathComps_concat_sep d]
  unfold directoryFilter.call
  cases hp : mpistatRecord.path r with
  | none => rfl
  | some p =>
    show some (startsWithL (directoryFilter.init (d ++ [47])).base64Pref r._path &&
        dirMember (d ++ [47]) p) =
      some (startsWithL (directoryFilter.init d).base64Pref r._path && dirMember d p)
    rw [hpre, hmem p]

/-- Witness for claim C5 at the directory /a: the filters built from /a/ and
from /a agree on a record whose decoded path is /a/b. -/
theorem directoryFilter_trailing_slash_equiv_witness :
    directoryFilter.call (directoryFilter.init [47, 97, 47])
      (recWithPath (b64encode [47, 97, 47, 98])) =
      directoryFilter.call (directoryFilter.init [47, 97])
        (recWithPath (b64encode [47, 97, 47, 98])) :=
  directoryFilter_trailing_slash_equiv [47, 97] (by decide) (by decide)
    (recWithPath (b64encode [47, 97, 47, 98]))

/-- Counterexample to claim C5 as stated: the one byte directory string slash
carries a trailing separator, and the same string without that separator is
the empty string; on a record whose decoded path is the relative name a, the
filter built from slash answers some false while the filter built from the
empty string answers some true, because pathlib gives the two directory
strings different anchors. -/
theorem directoryFilter_trailing_slash_root_counterex :
    directoryFilter.call (directoryFilter.init [47]) (recWithPath (b64encode [97])) =
      some false ∧
    directoryFilter.call (directoryFilter.init []) (recWithPath (b64encode [97])) =
      some true := by
  decide

/-- Claim C10: constructing a record from an eleven field line whose path
field is UTF-8 text (and tab free) succeeds and stores the field verbatim,
with no base64 requirement on the field at all; and when the stored field is
not decodable base64, only the on demand path accessor fails. -/
theorem mpistatRecord_construction_lazy (f0 : List Nat) (h9 : 9 ∉ f0)
    (hu : validUtf8 f0 = true) :
    ∃ r, mpistatRecord.ofLine (f0 ++ restLine) = some r ∧ r._path = f0 ∧
      (b64decodeOpt f0 = none → mpistatRecord.path r = none) := by
  have hsplit : splitOnByte 9 (f0 ++ restLine) =
      [f0, [48], [48], [48], [48], [48], [48], [100], [48], [48], [48]] := by
    show splitOnByte 9
      (f0 ++ 9 :: [48, 9, 48, 9, 48, 9, 48, 9, 48, 9, 48, 9, 100, 9, 48, 9, 48, 9, 48]) = _
    rw [splitOnByte_append_cons 9 f0 _ h9]
    rfl
  refine ⟨⟨f0, 0, 0, 0, 0, 0, 0, [100], 0, 0, 0⟩, ?_, rfl, ?_⟩
  · unfold mpistatRecord.ofLine
    rw [hsplit]
    have hdec : pyDecodeOpt f0 = some f0 := by
      unfold pyDecodeOpt
      rw [if_pos hu]
    simp only [mpistatRecord.ofFields, hdec]
    rfl
  · intro hb
    show (match b64decodeOpt f0 with
      | some bs => pyDecodeOpt bs
      | none => none) = none
    rw [hb]

/-- Witness for claim C10 at the path field holding the single byte A, which
is valid text, contains no tab, and is not decodable base64. -/
theorem mpistatRecord_construction_lazy_witness :
    ∃ r, mpistatRecord.ofLine ([65] ++ restLine) = some r ∧ r._path = [65] ∧
      (b64decodeOpt [65] = none → mpistatRecord.path r = none) :=
  mpistatRecord_construction_lazy [65] (by decide) (by decide)

theorem ofFields_isSome_eq (fs : List (List Nat)) :
    (mpistatRecord.ofFields fs).isSome = specFieldsOK fs := by
  rcases fs with _ | ⟨f0, _ | ⟨f1, _ | ⟨f2, _ | ⟨f3, _ | ⟨f4, _ | ⟨f5, _ | ⟨f6, _ | ⟨f7,
    _ | ⟨f8, _ | ⟨f9, _ | ⟨f10, _ | ⟨f11, t⟩⟩⟩⟩⟩⟩⟩⟩⟩⟩⟩⟩ <;> try rfl
  simp only [mpistatRecord.ofFields, specFieldsOK]
  rw [← pyDecodeOpt_isSome f0, ← pyDecodeOpt_isSome f7, ← tsInRange_eq f4,
    ← tsInRange_eq f5, ← tsInRange_eq f6]
  rcases pyDecodeOpt f0 with _ | p0
  · simp
  rcases pyIntOpt f1 with _ | v1
  · simp
  rcases pyIntOpt f2 with _ | v2
  · simp
  rcases pyIntOpt f3 with _ | v3
  · simp
  rcases pyTimestamp f4 with _ | t4
  · simp
  rcases pyTimestamp f5 with _ | t5
  · simp
  rcases pyTimestamp f6 with _ | t6
  · simp
  rcases pyDecodeOpt f7 with _ | p7
  · simp
  rcases pyIntOpt f8 with _ | v8
  · simp
  rcases pyIntOpt f9 with _ | v9
  · simp
  rcases pyIntOpt f10 with _ | v10
  · simp
  rfl

/-- Claim C6 (amended): the record constructor succeeds on a raw line exactly
when the line splits into eleven tab separated fields whose nine numeric
fields parse as integers, and additionally the path and mode fields are
decodable UTF-8 text and the three timestamp values lie in the range the
datetime type supports; every other line makes construction fail.  The
amendment adds the two extra conditions, which the counterexample shows are
really imposed by the code. -/
theorem mpistatRecord_wellformed_iff (line : List Nat) :
    (mpistatRecord.ofLine line).isSome = specLineOK line :=
  ofFields_isSome_eq (splitOnByte 9 line)

/-- Counterexample to claim C6 as stated: badLine splits into exactly eleven
fields and each of its nine numeric fields is the digit 0, which parses as an
integer, so the claim as stated promises success, yet construction fails
because the path field is the byte 255, which the text decode of the field
rejects. -/
theorem mpistatRecord_nonUtf8_field_counterex :
    splitOnByte 9 badLine =
      [[255], [48], [48], [48], [48], [48], [48], [100], [48], [48], [48]] ∧
    pyIntOpt [48] = some 0 ∧
    mpistatRecord.ofLine badLine = none := by
  decide

/-- Claim C7: when every predicate of the filter set evaluates without
raising on a record, the filter set answers some true exactly when at least
one predicate answers some true, and the empty filter set answers some false
on every record. -/
theorem mpistatFilter_or_semantics (pw gr : Int → Option (List Nat))
    (fs : List RecordPred) (r : MpistatRecord)
    (h : ∀ f ∈ fs, (RecordPred.eval pw gr f r).isSome = true) :
    (mpistatFilter.call pw gr fs r = some true ↔
      ∃ f ∈ fs, RecordPred.eval pw gr f r = some true) ∧
    mpistatFilter.call pw gr [] r = some false := by
  refine ⟨?_, rfl⟩
  revert h
  induction fs with
  | nil =>
    intro h
    simp [mpistatFilter.call]
  | cons f rest ih =>
    intro h
    have hf := h f (List.mem_cons_self f rest)
    rcases he : RecordPred.eval pw gr f r with _ | b
    · rw [he] at hf
      simp at hf
    · cases b with
      | true =>
        simp only [mpistatFilter.call, he]
        constructor
        · intro _
          exact ⟨f, List.mem_cons_self f rest, he⟩
        · intro _
          trivial
      | false =>
        have hiff := ih (fun g hg => h g (List.mem_cons_of_mem f hg))
        simp only [mpistatFilter.call, he]
        rw [hiff]
        constructor
        · rintro ⟨g, hg, hgt⟩
          exact ⟨g, List.mem_cons_of_mem f hg, hgt⟩
        · rintro ⟨g, hg, hgt⟩
          rcases List.mem_cons.mp hg with heq | hg2
          · subst heq
            rw [hgt] at he
            cases he
          · exact ⟨g, hg2, hgt⟩

/-- Witness for claim C7 on a one predicate filter set (numeric uid 0) and a
record with uid 0, under the empty identity collaborator. -/
theorem mpistatFilter_or_semantics_witness :
    (mpistatFilter.call pw0 pw0 fs1 rec0 = some true ↔
      ∃ f ∈ fs1, RecordPred.eval pw0 pw0 f rec0 = some true) ∧
    mpistatFilter.call pw0 pw0 [] rec0 = some false :=
  mpistatFilter_or_semantics pw0 pw0 fs1 rec0 (by decide)

/-- Claim C8: when the stream loop completes, the produced output is exactly
the filter of the input lines through the acceptance test: every line that
passes appears verbatim, every line that fails appears nowhere, and the
order is the input order. -/
theorem driver_emits_exactly_matching_lines (pw gr : Int → Option (List Nat))
    (fs : List RecordPred) :
    ∀ (lines out : List (List Nat)), driver pw gr fs lines = some out →
      out = lines.filter (lineMatches pw gr fs) := by
  intro lines
  induction lines with
  | nil =>
    intro out h
    simp only [driver, Option.some.injEq] at h
    rw [← h]
    rfl
  | cons l rest ih =>
    intro out h
    simp only [driver] at h
    rcases hr : mpistatRecord.ofLine l with _ | r
    · simp [hr] at h
    · simp only [hr] at h
      rcases hc : mpistatFilter.call pw gr fs r with _ | b
      · simp [hc] at h
      · simp only [hc] at h
        rcases hd : driver pw gr fs rest with _ | out2
        · simp [hd] at h
        · simp only [hd, Option.some.injEq] at h
          have hout2 := ih out2 hd
          have hmatch : lineMatches pw gr fs l = b := by
            simp only [lineMatches, hr, hc]
            cases b <;> simp
          rw [List.filter_cons, hmatch, ← h, hout2]

/-- Witness for claim C8 on a single well formed line and the empty filter
set: the run completes and produces the empty output, which equals the
filter of the input. -/
theorem driver_emits_exactly_matching_lines_witness :
    ([] : List (List Nat)) = [goodLine].filter (lineMatches pw0 pw0 []) :=
  driver_emits_exactly_matching_lines pw0 pw0 [] [goodLine] [] (by decide)

